import Mathlib

/-!
Verification of the SSZ hash-tree-root engine (`ssz.py`) of the bankai
repository: a shallow embedding of the Python source into Lean 4, followed
by theorems settling the specification claims.

Modelling conventions:
  - Python `bytes` is `List Nat` (each entry a byte value).
  - Python exceptions (`ValueError`, `OverflowError`, `IndexError`) become
    an explicit `Except SszError` result.
  - The unbounded `while` loops of the source become fuel-based structural
    recursion; the fuel chosen is provably sufficient (see the lemmas on
    `reduceLoop` and `npotLoop`), so the embedding agrees with the source
    on every input, and all definitions evaluate inside the kernel.
  - `hashlib.sha256` is embedded as the FIPS 180-4 SHA-256 compression
    pipeline over byte lists.
-/

/-- Byte strings are lists of byte values. -/
abbrev Bytes := List Nat

/-! ## SHA-256 (embedding of `hashlib.sha256(...).digest()`) -/

/-- Right-rotation of a 32-bit word. -/
def rotr (n x : Nat) : Nat := ((x >>> n) ||| (x <<< (32 - n))) % 2 ^ 32

/-- The 64 SHA-256 round constants of FIPS 180-4 (the fractional parts of
the cube roots of the first 64 primes), written in decimal. -/
def sha256K : List Nat :=
  [1116352408, 1899447441, 3049323471, 3921009573, 961987163, 1508970993,
   2453635748, 2870763221, 3624381080, 310598401, 607225278, 1426881987,
   1925078388, 2162078206, 2614888103, 3248222580, 3835390401, 4022224774,
   264347078, 604807628, 770255983, 1249150122, 1555081692, 1996064986,
   2554220882, 2821834349, 2952996808, 3210313671, 3336571891, 3584528711,
   113926993, 338241895, 666307205, 773529912, 1294757372, 1396182291,
   1695183700, 1986661051, 2177026350, 2456956037, 2730485921, 2820302411,
   3259730800, 3345764771, 3516065817, 3600352804, 4094571909, 275423344,
   430227734, 506948616, 659060556, 883997877, 958139571, 1322822218,
   1537002063, 1747873779, 1955562222, 2024104815, 2227730452, 2361852424,
   2428436474, 2756734187, 3204031479, 3329325298]

/-- Working state of the SHA-256 compression function: eight 32-bit words. -/
structure Sha256State where
  a : Nat
  b : Nat
  c : Nat
  d : Nat
  e : Nat
  f : Nat
  g : Nat
  h : Nat
  deriving Repr, DecidableEq

/-- The SHA-256 initial hash value of FIPS 180-4, written in decimal. -/
def sha256Init : Sha256State :=
  ⟨1779033703, 3144134277, 1013904242, 2773480762,
   1359893119, 2600822924, 528734635, 1541459225⟩

/-- One round of the SHA-256 compression function. -/
def sha256Round (st : Sha256State) (kw : Nat × Nat) : Sha256State :=
  let S1 := rotr 6 st.e ^^^ rotr 11 st.e ^^^ rotr 25 st.e
  let ch := (st.e &&& st.f) ^^^ ((st.e ^^^ 0xffffffff) &&& st.g)
  let temp1 := (st.h + S1 + ch + kw.1 + kw.2) % 2 ^ 32
  let S0 := rotr 2 st.a ^^^ rotr 13 st.a ^^^ rotr 22 st.a
  let maj := (st.a &&& st.b) ^^^ (st.a &&& st.c) ^^^ (st.b &&& st.c)
  let temp2 := (S0 + maj) % 2 ^ 32
  ⟨(temp1 + temp2) % 2 ^ 32, st.a, st.b, st.c,
   (st.d + temp1) % 2 ^ 32, st.e, st.f, st.g⟩

/-- Group a byte list into big-endian 32-bit words. -/
def bytesToWords : List Nat → List Nat
  | b0 :: b1 :: b2 :: b3 :: rest =>
      (b0 * 2 ^ 24 + b1 * 2 ^ 16 + b2 * 2 ^ 8 + b3) :: bytesToWords rest
  | _ => []

/-- Message-schedule small sigma 0. -/
def ssig0 (w : Nat) : Nat := rotr 7 w ^^^ rotr 18 w ^^^ (w >>> 3)

/-- Message-schedule small sigma 1. -/
def ssig1 (w : Nat) : Nat := rotr 17 w ^^^ rotr 19 w ^^^ (w >>> 10)

/-- Extend the 16-word message schedule by `n` further words. -/
def schedExtend : Nat → List Nat → List Nat
  | 0, w => w
  | n + 1, w =>
      let i := w.length
      schedExtend n (w ++ [(ssig1 (w.getD (i - 2) 0) + w.getD (i - 7) 0 +
        ssig0 (w.getD (i - 15) 0) + w.getD (i - 16) 0) % 2 ^ 32])

/-- SHA-256 compression of one 64-byte block into the running state. -/
def compressBlock (st : Sha256State) (block : List Nat) : Sha256State :=
  let w := schedExtend 48 (bytesToWords block)
  let t := (sha256K.zip w).foldl sha256Round st
  ⟨(st.a + t.a) % 2 ^ 32, (st.b + t.b) % 2 ^ 32, (st.c + t.c) % 2 ^ 32,
   (st.d + t.d) % 2 ^ 32, (st.e + t.e) % 2 ^ 32, (st.f + t.f) % 2 ^ 32,
   (st.g + t.g) % 2 ^ 32, (st.h + t.h) % 2 ^ 32⟩

/-- Big-endian byte encoding of a number on `n` bytes. -/
def toBytesBE : Nat → Nat → List Nat
  | 0, _ => []
  | n + 1, x => toBytesBE n (x / 256) ++ [x % 256]

/-- SHA-256 message padding: append `0x80`, zero bytes up to 56 mod 64,
then the bit length on 8 big-endian bytes. -/
def padMessage (msg : List Nat) : List Nat :=
  msg ++ 128 :: (List.replicate ((119 - msg.length % 64) % 64) 0 ++
    toBytesBE 8 (8 * msg.length))

/-- Split a byte list into consecutive 64-byte blocks (fuel = list length). -/
def splitBlocks : Nat → List Nat → List (List Nat)
  | 0, _ => []
  | _, [] => []
  | n + 1, l => l.take 64 :: splitBlocks n (l.drop 64)

/-- Big-endian bytes of one 32-bit word. -/
def wordBE (x : Nat) : List Nat :=
  [x / 2 ^ 24 % 256, x / 2 ^ 16 % 256, x / 2 ^ 8 % 256, x % 256]

/-- Serialize the final state into the 32-byte digest. -/
def stateToBytes (s : Sha256State) : List Nat :=
  wordBE s.a ++ wordBE s.b ++ wordBE s.c ++ wordBE s.d ++
  wordBE s.e ++ wordBE s.f ++ wordBE s.g ++ wordBE s.h

/-- Embedding of `hashlib.sha256(x).digest()`: the SHA-256 digest of the
byte string `x`. -/
def sha256 (msg : Bytes) : Bytes :=
  let padded := padMessage msg
  stateToBytes ((splitBlocks padded.length padded).foldl compressBlock sha256Init)

/-! ## SSZ engine (embedding of `ssz.py`) -/

/-- The failure modes of the SSZ engine: `capacityExceeded` and
`lengthMismatch` are the two `ValueError`s raised by the source,
`overflow` is Python's `OverflowError` from `int.to_bytes`, and
`indexError` is an out-of-range list access. -/
inductive SszError where
  | capacityExceeded
  | lengthMismatch
  | overflow
  | indexError
  deriving Repr, DecidableEq

/-- Body of the `while p < x` doubling loop of `next_power_of_two`,
with explicit fuel (the fuel passed, `x`, is provably sufficient). -/
def npotLoop : Nat → Nat → Nat → Nat
  | 0, _, p => p
  | fuel + 1, x, p => if p < x then npotLoop fuel x (p * 2) else p

/-- Embedding of `next_power_of_two`: the next power of 2 that is `>= x`,
with `next_power_of_two 0 = 1`. -/
def next_power_of_two (x : Nat) : Nat :=
  if x ≤ 1 then 1 else npotLoop x x 1

/-- An all-zero 32-byte chunk (`b"\x00" * 32`). -/
def zeroChunk : Bytes := List.replicate 32 0

/-- One pairing round of the bottom-up Merkle reduction: hash the chunks at
positions `2i` and `2i+1`, left to right.  `none` models the `IndexError`
that the source's `layer[i+1]` access would raise on an odd-length layer. -/
def pairUp : List Bytes → Option (List Bytes)
  | [] => some []
  | [_] => none
  | a :: b :: rest => (pairUp rest).map (fun t => sha256 (a ++ b) :: t)

/-- The `while len(layer) > 1` reduction loop of `merkleize`, with explicit
fuel; the final `layer.head?` models the `return layer[0]`.  The fuel used
by `merkleizeCore`, one more than the layer length, is provably sufficient. -/
def reduceLoop : Nat → List Bytes → Option Bytes
  | 0, _ => none
  | fuel + 1, layer =>
      if layer.length > 1 then (pairUp layer).bind (reduceLoop fuel)
      else layer.head?

/-- Padding and bottom-up reduction shared by both branches of `merkleize`:
pad with zero chunks to `size`, then reduce pairwise to a single root. -/
def merkleizeCore (chunks : List Bytes) (size : Nat) : Except SszError Bytes :=
  let padded := chunks ++ List.replicate (size - chunks.length) zeroChunk
  match reduceLoop (padded.length + 1) padded with
  | some r => Except.ok r
  | none => Except.error SszError.indexError

/-- Embedding of `merkleize`: with a limit,
fail when there are more chunks than the limit and otherwise pad to
`next_power_of_two limit`; without a limit pad to
`next_power_of_two (number of chunks)`; then reduce pairwise. -/
def merkleize (chunks : List Bytes) (limit : Option Nat) : Except SszError Bytes :=
  let n := chunks.length
  match limit with
  | some l =>
      if n > l then Except.error SszError.capacityExceeded
      else merkleizeCore chunks (next_power_of_two l)
  | none => merkleizeCore chunks (next_power_of_two n)

/-- Little-endian byte encoding of a natural number on `n` bytes. -/
def toBytesLE : Nat → Nat → List Nat
  | 0, _ => []
  | n + 1, x => x % 256 :: toBytesLE n (x / 256)

/-- Embedding of Python's `x.to_bytes(n, "little")` on an arbitrary integer:
raises `OverflowError` when `x` is negative or does not fit in `n` bytes. -/
def int_to_bytes (x : Int) (n : Nat) : Except SszError Bytes :=
  if 0 ≤ x ∧ x < (2 : Int) ^ (8 * n) then Except.ok (toBytesLE n x.toNat)
  else Except.error SszError.overflow

/-- Embedding of `mix_in_length`: hash the
root followed by the length as a 32-byte little-endian number. -/
def mix_in_length (root : Bytes) (length : Int) : Except SszError Bytes :=
  (int_to_bytes length 32).map (fun lb => sha256 (root ++ lb))

/-- Embedding of `hash_tree_root_of_uint64`: 8-byte little-endian encoding,
zero-padded to 32 bytes, merkleized as a single chunk. -/
def hash_tree_root_of_uint64 (x : Int) : Except SszError Bytes :=
  (int_to_bytes x 8).bind (fun b =>
    merkleize [b ++ List.replicate (32 - b.length) 0] none)

/-- Embedding of `hash_tree_root_of_uint256`: 32-byte little-endian
encoding, merkleized as a single chunk. -/
def hash_tree_root_of_uint256 (x : Int) : Except SszError Bytes :=
  (int_to_bytes x 32).bind (fun b => merkleize [b] none)

/-- Zero-pad a (at most 32-byte) slice up to 32 bytes. -/
def pad32 (c : Bytes) : Bytes := c ++ List.replicate (32 - c.length) 0

/-- The `for i in range(0, len(data), 32)` chunking loop shared by
`hash_tree_root_of_byte_vector` and `hash_tree_root_of_byte_list`, with
explicit fuel (the list length, provably sufficient). -/
def chunkLoop : Nat → Bytes → List Bytes
  | 0, _ => []
  | _, [] => []
  | fuel + 1, data => pad32 (data.take 32) :: chunkLoop fuel (data.drop 32)

/-- Embedding of `hash_tree_root_of_byte_vector`: require the exact declared
length, split into 32-byte chunks and merkleize with no limit. -/
def hash_tree_root_of_byte_vector (fixed_bytes : Bytes) (length : Nat) :
    Except SszError Bytes :=
  if fixed_bytes.length ≠ length then Except.error SszError.lengthMismatch
  else merkleize (chunkLoop fixed_bytes.length fixed_bytes) none

/-- Embedding of `hash_tree_root_of_byte_list`: require at most `max_length`
bytes, split into 32-byte chunks, merkleize with the chunk limit
`(max_length + 31) / 32`, then mix in the byte length. -/
def hash_tree_root_of_byte_list (variable_bytes : Bytes) (max_length : Nat) :
    Except SszError Bytes :=
  if variable_bytes.length > max_length then Except.error SszError.capacityExceeded
  else
    let chunks := chunkLoop variable_bytes.length variable_bytes
    let chunk_limit := (max_length + 31) / 32
    (merkleize chunks (some chunk_limit)).bind (fun root =>
      mix_in_length root (variable_bytes.length : Int))

/-- The 17 fields of the execution payload header, in declared schema
order (models the `fields` dict with all required keys present). -/
structure PayloadFields where
  parent_hash : Bytes
  fee_recipient : Bytes
  state_root : Bytes
  receipts_root : Bytes
  logs_bloom : Bytes
  prev_randao : Bytes
  block_number : Int
  gas_limit : Int
  gas_used : Int
  timestamp : Int
  extra_data : Bytes
  base_fee_per_gas : Int
  block_hash : Bytes
  transactions_root : Bytes
  withdrawals_root : Bytes
  blob_gas_used : Int
  excess_blob_gas : Int

/-- Embedding of `hash_tree_root_of_execution_payload_header`: compute the
17 field roots in schema order, then merkleize them with no limit; any
field failure aborts the whole computation. -/
def hash_tree_root_of_execution_payload_header (f : PayloadFields) :
    Except SszError (Bytes × List Bytes) :=
  (hash_tree_root_of_byte_vector f.parent_hash 32).bind (fun r0 =>
  (hash_tree_root_of_byte_vector f.fee_recipient 20).bind (fun r1 =>
  (hash_tree_root_of_byte_vector f.state_root 32).bind (fun r2 =>
  (hash_tree_root_of_byte_vector f.receipts_root 32).bind (fun r3 =>
  (hash_tree_root_of_byte_vector f.logs_bloom 256).bind (fun r4 =>
  (hash_tree_root_of_byte_vector f.prev_randao 32).bind (fun r5 =>
  (hash_tree_root_of_uint64 f.block_number).bind (fun r6 =>
  (hash_tree_root_of_uint64 f.gas_limit).bind (fun r7 =>
  (hash_tree_root_of_uint64 f.gas_used).bind (fun r8 =>
  (hash_tree_root_of_uint64 f.timestamp).bind (fun r9 =>
  (hash_tree_root_of_byte_list f.extra_data 32).bind (fun r10 =>
  (hash_tree_root_of_uint256 f.base_fee_per_gas).bind (fun r11 =>
  (hash_tree_root_of_byte_vector f.block_hash 32).bind (fun r12 =>
  (hash_tree_root_of_byte_vector f.transactions_root 32).bind (fun r13 =>
  (hash_tree_root_of_byte_vector f.withdrawals_root 32).bind (fun r14 =>
  (hash_tree_root_of_uint64 f.blob_gas_used).bind (fun r15 =>
  (hash_tree_root_of_uint64 f.excess_blob_gas).bind (fun r16 =>
    let roots := [r0, r1, r2, r3, r4, r5, r6, r7, r8,
                  r9, r10, r11, r12, r13, r14, r15, r16]
    (merkleize roots none).bind (fun container_root =>
      Except.ok (container_root, roots)))))))))))))))))))

/-- Specification-side chunking, written from the spec's words: split the
data into consecutive 32-byte chunks, zero-padding the final chunk.  Stated
separately from the source-translated `chunkLoop` so that the byte-list
claim relates the implementation to this description. -/
def chunksOf (data : Bytes) : List Bytes :=
  if h : data = [] then []
  else pad32 (data.take 32) :: chunksOf (data.drop 32)
termination_by data.length
decreasing_by
  cases data with
  | nil => exact absurd rfl h
  | cons a t => simpa using Nat.lt_succ_of_le (Nat.sub_le t.length 31)

/-- A concrete, in-range assignment of the 17 payload-header fields, used
to instantiate the container theorem. -/
def sampleFields : PayloadFields :=
  ⟨List.replicate 32 0, List.replicate 20 0, List.replicate 32 0,
   List.replicate 32 0, List.replicate 256 0, List.replicate 32 0,
   0, 0, 0, 0, [], 0, List.replicate 32 0, List.replicate 32 0,
   List.replicate 32 0, 0, 0⟩

/-! ## Helper lemmas -/

theorem sha256_length (msg : Bytes) : (sha256 msg).length = 32 := rfl

theorem npotLoop_pow (fuel : Nat) : ∀ x p, (∃ k, p = 2 ^ k) →
    ∃ m, npotLoop fuel x p = 2 ^ m := by
  induction fuel with
  | zero => intro x p hp; simpa [npotLoop] using hp
  | succ n ih =>
      intro x p hp
      obtain ⟨k, rfl⟩ := hp
      by_cases h : 2 ^ k < x
      · simpa [npotLoop, h] using ih x (2 ^ k * 2) ⟨k + 1, (pow_succ 2 k).symm⟩
      · exact ⟨k, by simp [npotLoop, h]⟩

theorem npotLoop_ge (fuel : Nat) : ∀ x p, x ≤ 2 ^ fuel * p →
    x ≤ npotLoop fuel x p := by
  induction fuel with
  | zero => intro x p hp; simpa [npotLoop] using hp
  | succ n ih =>
      intro x p hp
      by_cases h : p < x
      · simp only [npotLoop, h, if_true]
        exact ih x (p * 2) (by calc x ≤ 2 ^ (n + 1) * p := hp
                                 _ = 2 ^ n * (p * 2) := by ring)
      · simpa [npotLoop, h] using Nat.le_of_not_lt h

theorem npot_pow (x : Nat) : ∃ k, next_power_of_two x = 2 ^ k := by
  unfold next_power_of_two
  by_cases h : x ≤ 1
  · exact ⟨0, by simp [h]⟩
  · simpa [h] using npotLoop_pow x x 1 ⟨0, rfl⟩

theorem npot_ge (x : Nat) : x ≤ next_power_of_two x := by
  unfold next_power_of_two
  by_cases h : x ≤ 1
  · simpa [h] using h
  · simpa [h] using npotLoop_ge x x 1 (by simpa using (Nat.lt_two_pow x).le)

theorem npot_pos (x : Nat) : 1 ≤ next_power_of_two x := by
  obtain ⟨k, hk⟩ := npot_pow x
  rw [hk]; exact Nat.one_le_two_pow

theorem pairUp_spec : ∀ m (l : List Bytes), l.length = 2 * m →
    ∃ l2, pairUp l = some l2 ∧ l2.length = m ∧ ∀ c ∈ l2, c.length = 32 := by
  intro m
  induction m with
  | zero =>
      intro l hl
      rw [List.length_eq_zero] at hl
      exact ⟨[], by simp [hl, pairUp]⟩
  | succ n ih =>
      intro l hl
      match l, hl with
      | a :: b :: rest, hl =>
          have hr : rest.length = 2 * n := by simp at hl; omega
          obtain ⟨l2, h1, h2, h3⟩ := ih rest hr
          refine ⟨sha256 (a ++ b) :: l2, by simp [pairUp, h1], by simp [h2], ?_⟩
          intro c hc
          rcases List.mem_cons.mp hc with hc | hc
          · rw [hc]; exact sha256_length _
          · exact h3 c hc

theorem reduceLoop_some : ∀ k fuel (layer : List Bytes),
    layer.length = 2 ^ k → k + 1 ≤ fuel →
    ∃ r, reduceLoop fuel layer = some r ∧
      ((∀ c ∈ layer, c.length = 32) → r.length = 32) := by
  intro k
  induction k with
  | zero =>
      intro fuel layer hlen hfuel
      obtain ⟨r, rfl⟩ := List.length_eq_one.mp (by simpa using hlen)
      obtain ⟨f, rfl⟩ := Nat.exists_eq_add_of_le hfuel
      exact ⟨r, by simp [reduceLoop, Nat.add_comm], fun h => h r (by simp)⟩
  | succ n ih =>
      intro fuel layer hlen hfuel
      obtain ⟨f, rfl⟩ := Nat.exists_eq_add_of_le hfuel
      have h2 : layer.length = 2 * 2 ^ n := by rw [hlen]; ring
      obtain ⟨l2, hp, hl2, h32⟩ := pairUp_spec (2 ^ n) layer h2
      have hgt : layer.length > 1 := by
        rw [hlen]; exact Nat.one_lt_two_pow (by omega)
      obtain ⟨r, hr, himp⟩ := ih (n + 1 + f) l2 hl2 (by omega)
      have hstep : reduceLoop (n + 1 + 1 + f) layer = reduceLoop (n + 1 + f) l2 := by
        have hfe : n + 1 + 1 + f = (n + 1 + f) + 1 := by omega
        rw [hfe]; simp [reduceLoop, hgt, hp]
      exact ⟨r, by rw [hstep]; exact hr, fun _ => himp h32⟩

theorem merkleizeCore_ok (chunks : List Bytes) (size : Nat)
    (hle : chunks.length ≤ size) (hpow : ∃ k, size = 2 ^ k) :
    ∃ r, merkleizeCore chunks size = Except.ok r ∧
      ((∀ c ∈ chunks, c.length = 32) → r.length = 32) := by
  obtain ⟨k, rfl⟩ := hpow
  set padded := chunks ++ List.replicate (2 ^ k - chunks.length) zeroChunk with hpad
  have hplen : padded.length = 2 ^ k := by
    simp [hpad, Nat.add_sub_cancel' hle]
  have hfuel : k + 1 ≤ padded.length + 1 := by
    rw [hplen]; exact Nat.add_le_add_right (Nat.lt_two_pow k).le 1
  obtain ⟨r, hr, himp⟩ := reduceLoop_some k (padded.length + 1) padded hplen hfuel
  refine ⟨r, ?_, fun h32 => ?_⟩
  · simp only [merkleizeCore]; rw [← hpad, hr]
  · refine himp fun c hc => ?_
    rcases List.mem_append.mp hc with hc | hc
    · exact h32 c hc
    · rw [(List.eq_of_mem_replicate hc : c = zeroChunk)]; rfl

theorem merkleize_ok (chunks : List Bytes) (limit : Option Nat)
    (hcap : ∀ l, limit = some l → chunks.length ≤ l) :
    ∃ r, merkleize chunks limit = Except.ok r ∧
      ((∀ c ∈ chunks, c.length = 32) → r.length = 32) := by
  match limit with
  | none =>
      obtain ⟨r, hr, himp⟩ :=
        merkleizeCore_ok chunks (next_power_of_two chunks.length)
          (npot_ge _) (npot_pow _)
      exact ⟨r, by simpa [merkleize] using hr, himp⟩
  | some l =>
      have hle : chunks.length ≤ l := hcap l rfl
      obtain ⟨r, hr, himp⟩ :=
        merkleizeCore_ok chunks (next_power_of_two l)
          (le_trans hle (npot_ge _)) (npot_pow _)
      exact ⟨r, by simpa [merkleize, Nat.not_lt.mpr hle] using hr, himp⟩

theorem merkleize_single (c : Bytes) : merkleize [c] none = Except.ok c := rfl

theorem merkleizeCore_no_capacity (chunks : List Bytes) (size : Nat) :
    merkleizeCore chunks size ≠ Except.error SszError.capacityExceeded := by
  simp only [merkleizeCore]
  split <;> simp

theorem toBytesLE_length : ∀ n x, (toBytesLE n x).length = n := by
  intro n
  induction n with
  | zero => intro x; rfl
  | succ m ih => intro x; simp [toBytesLE, ih]

theorem int_to_bytes_ok (x : Int) (n : Nat) (h0 : 0 ≤ x) (h1 : x < 2 ^ (8 * n)) :
    int_to_bytes x n = Except.ok (toBytesLE n x.toNat) := by
  simp [int_to_bytes, h0, h1]

theorem int_to_bytes_err (x : Int) (n : Nat) (h : ¬(0 ≤ x ∧ x < 2 ^ (8 * n))) :
    int_to_bytes x n = Except.error SszError.overflow := by
  simp only [int_to_bytes, if_neg h]

theorem mix_ok (root : Bytes) (len : Int) (h0 : 0 ≤ len) (h1 : len < 2 ^ 256) :
    mix_in_length root len = Except.ok (sha256 (root ++ toBytesLE 32 len.toNat)) := by
  have h256 : len < 2 ^ (8 * 32) := by norm_num at h1 ⊢; exact h1
  simp only [mix_in_length, int_to_bytes_ok len 32 h0 h256, Except.map]

theorem mix_err (root : Bytes) (len : Int) (h : len < 0 ∨ 2 ^ 256 ≤ len) :
    mix_in_length root len = Except.error SszError.overflow := by
  have hn : ¬(0 ≤ len ∧ len < 2 ^ (8 * 32)) := by
    rcases h with h | h
    · exact fun hc => absurd hc.1 (not_le.mpr h)
    · refine fun hc => absurd hc.2 (not_lt.mpr ?_)
      norm_num at h ⊢; exact h
  simp [mix_in_length, int_to_bytes_err len 32 hn, Except.map]

theorem pad32_length (c : Bytes) (h : c.length ≤ 32) : (pad32 c).length = 32 := by
  simp [pad32]; omega

theorem chunkLoop_all32 : ∀ fuel (data : Bytes), ∀ c ∈ chunkLoop fuel data,
    c.length = 32 := by
  intro fuel
  induction fuel with
  | zero => intro data c hc; simp [chunkLoop] at hc
  | succ m ih =>
      intro data c hc
      match data with
      | [] => simp [chunkLoop] at hc
      | a :: t =>
          rcases List.mem_cons.mp hc with hc | hc
          · rw [hc]
            exact pad32_length _ (by simpa using List.length_take_le 32 (a :: t))
          · exact ih _ c hc

theorem chunkLoop_count : ∀ fuel (data : Bytes), data.length ≤ fuel →
    (chunkLoop fuel data).length = (data.length + 31) / 32 := by
  intro fuel
  induction fuel with
  | zero =>
      intro data h
      rw [List.length_eq_zero.mp (Nat.le_zero.mp h)]
      rfl
  | succ m ih =>
      intro data h
      match data with
      | [] => rfl
      | a :: t =>
          have hlen : (a :: t).length = t.length + 1 := rfl
          have hdrop : ((a :: t).drop 32).length = t.length + 1 - 32 := by
            simp
          have hrec := ih ((a :: t).drop 32) (by rw [hdrop]; omega)
          simp only [chunkLoop, List.length_cons, hrec, hdrop]
          omega

theorem chunkLoop_eq_chunksOf : ∀ fuel (data : Bytes), data.length ≤ fuel →
    chunkLoop fuel data = chunksOf data := by
  intro fuel
  induction fuel with
  | zero =>
      intro data h
      rw [List.length_eq_zero.mp (Nat.le_zero.mp h)]
      simp [chunkLoop, chunksOf]
  | succ m ih =>
      intro data h
      match data with
      | [] => simp [chunkLoop, chunksOf]
      | a :: t =>
          rw [chunksOf, dif_neg (List.cons_ne_nil a t)]
          simp only [chunkLoop]
          rw [ih ((a :: t).drop 32) (by simp at h ⊢; omega)]

theorem mix_no_capacity (root : Bytes) (len : Int) :
    mix_in_length root len ≠ Except.error SszError.capacityExceeded := by
  simp only [mix_in_length]
  cases hib : int_to_bytes len 32 with
  | ok b => simp [Except.map]
  | error e =>
      have he : e = SszError.overflow := by
        unfold int_to_bytes at hib
        split at hib
        · exact absurd hib (by simp)
        · injection hib with h; exact h.symm
      subst he
      simp [Except.map]

theorem bv_root_ok (data : Bytes) (n : Nat) (h : data.length = n) :
    ∃ r, hash_tree_root_of_byte_vector data n = Except.ok r ∧ r.length = 32 := by
  subst h
  obtain ⟨r, hr, himp⟩ := merkleize_ok (chunkLoop data.length data) none (by simp)
  exact ⟨r, by simp [hash_tree_root_of_byte_vector, hr],
         himp (chunkLoop_all32 _ _)⟩

theorem bv_err (data : Bytes) (n : Nat) (h : data.length ≠ n) :
    hash_tree_root_of_byte_vector data n = Except.error SszError.lengthMismatch := by
  simp [hash_tree_root_of_byte_vector, h]

theorem u64_eq (x : Int) (h0 : 0 ≤ x) (h1 : x < 2 ^ 64) :
    hash_tree_root_of_uint64 x =
      Except.ok (toBytesLE 8 x.toNat ++ List.replicate 24 0) := by
  have h64 : x < 2 ^ (8 * 8) := by norm_num at h1 ⊢; exact h1
  simp only [hash_tree_root_of_uint64, int_to_bytes_ok x 8 h0 h64, Except.bind,
    toBytesLE_length]
  norm_num
  exact merkleize_single _

theorem u64_root_ok (x : Int) (h0 : 0 ≤ x) (h1 : x < 2 ^ 64) :
    ∃ r, hash_tree_root_of_uint64 x = Except.ok r ∧ r.length = 32 := by
  rw [u64_eq x h0 h1]
  exact ⟨_, rfl, by simp [toBytesLE_length]⟩

theorem u256_eq (x : Int) (h0 : 0 ≤ x) (h1 : x < 2 ^ 256) :
    hash_tree_root_of_uint256 x = Except.ok (toBytesLE 32 x.toNat) := by
  have h256 : x < 2 ^ (8 * 32) := by norm_num at h1 ⊢; exact h1
  simp only [hash_tree_root_of_uint256, int_to_bytes_ok x 32 h0 h256, Except.bind]
  exact merkleize_single _

theorem u256_root_ok (x : Int) (h0 : 0 ≤ x) (h1 : x < 2 ^ 256) :
    ∃ r, hash_tree_root_of_uint256 x = Except.ok r ∧ r.length = 32 := by
  rw [u256_eq x h0 h1]
  exact ⟨_, rfl, toBytesLE_length 32 x.toNat⟩

theorem bl_root (data : Bytes) (maxLength : Nat) (h : data.length ≤ maxLength) :
    ∃ root,
      merkleize (chunkLoop data.length data) (some ((maxLength + 31) / 32)) =
        Except.ok root ∧ root.length = 32 ∧
      hash_tree_root_of_byte_list data maxLength =
        mix_in_length root (data.length : Int) := by
  have hcount : (chunkLoop data.length data).length ≤ (maxLength + 31) / 32 := by
    rw [chunkLoop_count data.length data le_rfl]
    exact Nat.div_le_div_right (by omega)
  obtain ⟨root, hr, himp⟩ :=
    merkleize_ok (chunkLoop data.length data) (some ((maxLength + 31) / 32))
      (by intro l hl; cases hl; exact hcount)
  refine ⟨root, hr, himp (chunkLoop_all32 _ _), ?_⟩
  simp only [hash_tree_root_of_byte_list, if_neg (Nat.not_lt.mpr h), hr, Except.bind]

theorem bl_root_ok (data : Bytes) (maxLength : Nat) (h : data.length ≤ maxLength)
    (h2 : (data.length : Int) < 2 ^ 256) :
    ∃ r, hash_tree_root_of_byte_list data maxLength = Except.ok r ∧
      r.length = 32 := by
  obtain ⟨root, _, _, heq⟩ := bl_root data maxLength h
  rw [heq, mix_ok root (data.length : Int) (Int.natCast_nonneg _) h2]
  exact ⟨_, rfl, sha256_length _⟩

/-! ## Claim theorems -/

/-- C2: for any byte string and any bound at least its length, the ByteList
hash tree root equals `mix_in_length` applied to the merkleization of the
32-byte chunks of the data under capacity `ceil(maxLength / 32)`, with the
mixed-in length being the byte length of the data. -/
theorem byte_list_root_formula (data : Bytes) (maxLength : Nat)
    (h : data.length ≤ maxLength) :
    ∃ root,
      merkleize (chunksOf data) (some ((maxLength + 31) / 32)) = Except.ok root ∧
      hash_tree_root_of_byte_list data maxLength =
        mix_in_length root (data.length : Int) := by
  obtain ⟨root, hr, _, heq⟩ := bl_root data maxLength h
  rw [← chunkLoop_eq_chunksOf data.length data le_rfl]
  exact ⟨root, hr, heq⟩

theorem byte_list_root_formula_witness :
    ∃ root,
      merkleize (chunksOf [1, 2, 3]) (some ((100 + 31) / 32)) = Except.ok root ∧
      hash_tree_root_of_byte_list [1, 2, 3] 100 =
        mix_in_length root (([1, 2, 3] : Bytes).length : Int) :=
  byte_list_root_formula [1, 2, 3] 100 (by decide)

/-- C3: with a capacity present and respected, the merkleization root
depends only on the chunk content and `next_power_of_two capacity`, not on
the chunk count: two capacities with the same next power of two give the
same result. -/
theorem merkleize_capacity_npot (chunks : List Bytes) (c1 c2 : Nat)
    (h1 : chunks.length ≤ c1) (h2 : chunks.length ≤ c2)
    (h : next_power_of_two c1 = next_power_of_two c2) :
    merkleize chunks (some c1) = merkleize chunks (some c2) := by
  simp [merkleize, Nat.not_lt.mpr h1, Nat.not_lt.mpr h2, h]

theorem merkleize_capacity_npot_witness :
    merkleize [zeroChunk] (some 5) = merkleize [zeroChunk] (some 8) :=
  merkleize_capacity_npot [zeroChunk] 5 8 (by decide) (by decide) (by decide)

/-- C5: `merkleize` with a capacity fails with `capacityExceeded` exactly
when the chunk count exceeds the capacity, and the ByteList root fails with
`capacityExceeded` exactly when the byte length exceeds `maxLength`. -/
theorem capacity_exceeded_iff (chunks : List Bytes) (cap : Nat)
    (data : Bytes) (maxLength : Nat) :
    (merkleize chunks (some cap) = Except.error SszError.capacityExceeded ↔
      chunks.length > cap) ∧
    (hash_tree_root_of_byte_list data maxLength =
        Except.error SszError.capacityExceeded ↔ data.length > maxLength) := by
  constructor
  · constructor
    · intro h
      by_contra hn
      rw [show merkleize chunks (some cap) =
            merkleizeCore chunks (next_power_of_two cap) from by
          simp [merkleize, hn]] at h
      exact merkleizeCore_no_capacity chunks (next_power_of_two cap) h
    · intro h; simp [merkleize, h]
  · constructor
    · intro h
      by_contra hn
      obtain ⟨root, _, _, heq⟩ := bl_root data maxLength (Nat.not_lt.mp hn)
      rw [heq] at h
      exact mix_no_capacity root (data.length : Int) h
    · intro h; simp [hash_tree_root_of_byte_list, h]

theorem capacity_exceeded_iff_witness :
    merkleize [zeroChunk, zeroChunk] (some 1) =
      Except.error SszError.capacityExceeded ∧
    hash_tree_root_of_byte_list [0, 0] 1 =
      Except.error SszError.capacityExceeded :=
  ⟨(capacity_exceeded_iff [zeroChunk, zeroChunk] 1 [0, 0] 1).1.mpr (by decide),
   (capacity_exceeded_iff [zeroChunk, zeroChunk] 1 [0, 0] 1).2.mpr (by decide)⟩

/-- C6: merkleizing a single 32-byte chunk with no capacity returns the
chunk itself unchanged (target size 1, no hashing). -/
theorem merkleize_single_chunk (c : Bytes) : merkleize [c] none = Except.ok c :=
  merkleize_single c

theorem merkleize_single_chunk_witness :
    merkleize [zeroChunk] none = Except.ok zeroChunk :=
  merkleize_single_chunk zeroChunk

/-- C7: the UInt64 root is the single chunk holding the 8-byte little-endian
encoding of the value zero-padded to 32 bytes, the UInt256 root is the
single chunk of the 32-byte little-endian encoding, and each fails with a
range error exactly when the value does not fit its width. -/
theorem uint_root_encoding (x : Int) :
    (0 ≤ x → x < 2 ^ 64 → hash_tree_root_of_uint64 x =
      Except.ok (toBytesLE 8 x.toNat ++ List.replicate 24 0)) ∧
    (¬(0 ≤ x ∧ x < 2 ^ 64) → hash_tree_root_of_uint64 x =
      Except.error SszError.overflow) ∧
    (0 ≤ x → x < 2 ^ 256 → hash_tree_root_of_uint256 x =
      Except.ok (toBytesLE 32 x.toNat)) ∧
    (¬(0 ≤ x ∧ x < 2 ^ 256) → hash_tree_root_of_uint256 x =
      Except.error SszError.overflow) := by
  refine ⟨u64_eq x, fun h => ?_, u256_eq x, fun h => ?_⟩
  · have h64 : ¬(0 ≤ x ∧ x < 2 ^ (8 * 8)) := by norm_num at h ⊢; exact h
    simp [hash_tree_root_of_uint64, int_to_bytes_err x 8 h64, Except.bind]
  · have h256 : ¬(0 ≤ x ∧ x < 2 ^ (8 * 32)) := by norm_num at h ⊢; exact h
    simp [hash_tree_root_of_uint256, int_to_bytes_err x 32 h256, Except.bind]

theorem uint_root_encoding_witness :
    hash_tree_root_of_uint64 5 =
      Except.ok (toBytesLE 8 (Int.toNat 5) ++ List.replicate 24 0) ∧
    hash_tree_root_of_uint256 (2 ^ 256) = Except.error SszError.overflow :=
  ⟨(uint_root_encoding 5).1 (by norm_num) (by norm_num),
   (uint_root_encoding (2 ^ 256)).2.2.2 (by norm_num)⟩

/-- C8: the ByteVector root computation fails with `lengthMismatch` exactly
when the data length differs from the declared length, and returns a root
when they agree. -/
theorem byte_vector_length_iff (data : Bytes) (length : Nat) :
    (hash_tree_root_of_byte_vector data length =
      Except.error SszError.lengthMismatch ↔ data.length ≠ length) ∧
    (data.length = length →
      ∃ r, hash_tree_root_of_byte_vector data length = Except.ok r) := by
  refine ⟨⟨fun h => ?_, bv_err data length⟩, fun h => ?_⟩
  · intro heq
    obtain ⟨r, hr, _⟩ := bv_root_ok data length heq
    rw [hr] at h
    exact Except.noConfusion h
  · obtain ⟨r, hr, _⟩ := bv_root_ok data length h
    exact ⟨r, hr⟩

theorem byte_vector_length_iff_witness :
    hash_tree_root_of_byte_vector [1, 2] 3 =
      Except.error SszError.lengthMismatch ∧
    ∃ r, hash_tree_root_of_byte_vector [1, 2] 2 = Except.ok r :=
  ⟨(byte_vector_length_iff [1, 2] 3).1.mpr (by decide),
   (byte_vector_length_iff [1, 2] 2).2 rfl⟩

/-- C9: whenever the capacity check passes, `merkleize` reaches a single
root with no out-of-bounds layer access (the padded layer has power-of-two
length, every pairing round is total), and when every input chunk is 32
bytes the root is 32 bytes. -/
theorem merkleize_total_safe (chunks : List Bytes) (limit : Option Nat)
    (hcap : ∀ l, limit = some l → chunks.length ≤ l)
    (h32 : ∀ c ∈ chunks, c.length = 32) :
    ∃ r, merkleize chunks limit = Except.ok r ∧ r.length = 32 := by
  obtain ⟨r, hr, himp⟩ := merkleize_ok chunks limit hcap
  exact ⟨r, hr, himp h32⟩

theorem merkleize_total_safe_witness :
    ∃ r, merkleize [zeroChunk, zeroChunk, zeroChunk] (some 5) =
      Except.ok r ∧ r.length = 32 :=
  merkleize_total_safe [zeroChunk, zeroChunk, zeroChunk] (some 5)
    (by intro l hl; cases hl; decide) (by decide)

/-- C10: `mix_in_length` fails with an overflow error exactly when the
length is negative or at least `2 ^ 256`, and returns a 32-byte digest for
every length in `[0, 2 ^ 256)`. -/
theorem mix_in_length_domain (root : Bytes) (len : Int) :
    (mix_in_length root len = Except.error SszError.overflow ↔
      (len < 0 ∨ 2 ^ 256 ≤ len)) ∧
    (0 ≤ len → len < 2 ^ 256 →
      ∃ d, mix_in_length root len = Except.ok d ∧ d.length = 32) := by
  refine ⟨⟨fun h => ?_, mix_err root len⟩, fun h0 h1 => ?_⟩
  · by_contra hn
    push_neg at hn
    rw [mix_ok root len hn.1 hn.2] at h
    exact Except.noConfusion h
  · exact ⟨_, mix_ok root len h0 h1, sha256_length _⟩

theorem mix_in_length_domain_witness :
    mix_in_length zeroChunk (2 ^ 256) = Except.error SszError.overflow ∧
    ∃ d, mix_in_length zeroChunk 7 = Except.ok d ∧ d.length = 32 :=
  ⟨(mix_in_length_domain zeroChunk (2 ^ 256)).1.mpr (by norm_num),
   (mix_in_length_domain zeroChunk 7).2 (by norm_num) (by norm_num)⟩

/-- C1: for every assignment of in-range values to the 17 fields of the
reference schema, the container computation succeeds, returns exactly 17
field roots in declared order (parent hash first, excess blob gas last),
and the container root is the limit-free merkleization of those roots. -/
theorem container_root_schema (f : PayloadFields)
    (hph : f.parent_hash.length = 32) (hfr : f.fee_recipient.length = 20)
    (hsr : f.state_root.length = 32) (hrr : f.receipts_root.length = 32)
    (hlb : f.logs_bloom.length = 256) (hpr : f.prev_randao.length = 32)
    (hbn : 0 ≤ f.block_number ∧ f.block_number < 2 ^ 64)
    (hgl : 0 ≤ f.gas_limit ∧ f.gas_limit < 2 ^ 64)
    (hgu : 0 ≤ f.gas_used ∧ f.gas_used < 2 ^ 64)
    (hts : 0 ≤ f.timestamp ∧ f.timestamp < 2 ^ 64)
    (hed : f.extra_data.length ≤ 32)
    (hbf : 0 ≤ f.base_fee_per_gas ∧ f.base_fee_per_gas < 2 ^ 256)
    (hbh : f.block_hash.length = 32) (htx : f.transactions_root.length = 32)
    (hwr : f.withdrawals_root.length = 32)
    (hbg : 0 ≤ f.blob_gas_used ∧ f.blob_gas_used < 2 ^ 64)
    (heb : 0 ≤ f.excess_blob_gas ∧ f.excess_blob_gas < 2 ^ 64) :
    ∃ croot roots,
      hash_tree_root_of_execution_payload_header f = Except.ok (croot, roots) ∧
      roots.length = 17 ∧
      merkleize roots none = Except.ok croot ∧
      List.map Except.ok roots =
        [hash_tree_root_of_byte_vector f.parent_hash 32,
         hash_tree_root_of_byte_vector f.fee_recipient 20,
         hash_tree_root_of_byte_vector f.state_root 32,
         hash_tree_root_of_byte_vector f.receipts_root 32,
         hash_tree_root_of_byte_vector f.logs_bloom 256,
         hash_tree_root_of_byte_vector f.prev_randao 32,
         hash_tree_root_of_uint64 f.block_number,
         hash_tree_root_of_uint64 f.gas_limit,
         hash_tree_root_of_uint64 f.gas_used,
         hash_tree_root_of_uint64 f.timestamp,
         hash_tree_root_of_byte_list f.extra_data 32,
         hash_tree_root_of_uint256 f.base_fee_per_gas,
         hash_tree_root_of_byte_vector f.block_hash 32,
         hash_tree_root_of_byte_vector f.transactions_root 32,
         hash_tree_root_of_byte_vector f.withdrawals_root 32,
         hash_tree_root_of_uint64 f.blob_gas_used,
         hash_tree_root_of_uint64 f.excess_blob_gas] := by
  obtain ⟨r0, h0, l0⟩ := bv_root_ok f.parent_hash 32 hph
  obtain ⟨r1, h1, l1⟩ := bv_root_ok f.fee_recipient 20 hfr
  obtain ⟨r2, h2, l2⟩ := bv_root_ok f.state_root 32 hsr
  obtain ⟨r3, h3, l3⟩ := bv_root_ok f.receipts_root 32 hrr
  obtain ⟨r4, h4, l4⟩ := bv_root_ok f.logs_bloom 256 hlb
  obtain ⟨r5, h5, l5⟩ := bv_root_ok f.prev_randao 32 hpr
  obtain ⟨r6, h6, l6⟩ := u64_root_ok f.block_number hbn.1 hbn.2
  obtain ⟨r7, h7, l7⟩ := u64_root_ok f.gas_limit hgl.1 hgl.2
  obtain ⟨r8, h8, l8⟩ := u64_root_ok f.gas_used hgu.1 hgu.2
  obtain ⟨r9, h9, l9⟩ := u64_root_ok f.timestamp hts.1 hts.2
  obtain ⟨r10, h10, l10⟩ := bl_root_ok f.extra_data 32 hed (by omega)
  obtain ⟨r11, h11, l11⟩ := u256_root_ok f.base_fee_per_gas hbf.1 hbf.2
  obtain ⟨r12, h12, l12⟩ := bv_root_ok f.block_hash 32 hbh
  obtain ⟨r13, h13, l13⟩ := bv_root_ok f.transactions_root 32 htx
  obtain ⟨r14, h14, l14⟩ := bv_root_ok f.withdrawals_root 32 hwr
  obtain ⟨r15, h15, l15⟩ := u64_root_ok f.blob_gas_used hbg.1 hbg.2
  obtain ⟨r16, h16, l16⟩ := u64_root_ok f.excess_blob_gas heb.1 heb.2
  obtain ⟨croot, hcr, _⟩ :=
    merkleize_ok [r0, r1, r2, r3, r4, r5, r6, r7, r8, r9, r10, r11, r12,
      r13, r14, r15, r16] none (by simp)
  refine ⟨croot,
    [r0, r1, r2, r3, r4, r5, r6, r7, r8, r9, r10, r11, r12, r13, r14, r15, r16],
    ?_, rfl, hcr, by simp [h0, h1, h2, h3, h4, h5, h6, h7, h8, h9, h10, h11,
      h12, h13, h14, h15, h16]⟩
  simp only [hash_tree_root_of_execution_payload_header, h0, h1, h2, h3, h4,
    h5, h6, h7, h8, h9, h10, h11, h12, h13, h14, h15, h16, hcr, Except.bind]

theorem container_root_schema_witness :
    ∃ croot roots,
      hash_tree_root_of_execution_payload_header sampleFields =
        Except.ok (croot, roots) ∧
      roots.length = 17 ∧
      merkleize roots none = Except.ok croot ∧
      List.map Except.ok roots =
        [hash_tree_root_of_byte_vector sampleFields.parent_hash 32,
         hash_tree_root_of_byte_vector sampleFields.fee_recipient 20,
         hash_tree_root_of_byte_vector sampleFields.state_root 32,
         hash_tree_root_of_byte_vector sampleFields.receipts_root 32,
         hash_tree_root_of_byte_vector sampleFields.logs_bloom 256,
         hash_tree_root_of_byte_vector sampleFields.prev_randao 32,
         hash_tree_root_of_uint64 sampleFields.block_number,
         hash_tree_root_of_uint64 sampleFields.gas_limit,
         hash_tree_root_of_uint64 sampleFields.gas_used,
         hash_tree_root_of_uint64 sampleFields.timestamp,
         hash_tree_root_of_byte_list sampleFields.extra_data 32,
         hash_tree_root_of_uint256 sampleFields.base_fee_per_gas,
         hash_tree_root_of_byte_vector sampleFields.block_hash 32,
         hash_tree_root_of_byte_vector sampleFields.transactions_root 32,
         hash_tree_root_of_byte_vector sampleFields.withdrawals_root 32,
         hash_tree_root_of_uint64 sampleFields.blob_gas_used,
         hash_tree_root_of_uint64 sampleFields.excess_blob_gas] :=
  container_root_schema sampleFields (by norm_num [sampleFields])
    (by norm_num [sampleFields]) (by norm_num [sampleFields])
    (by norm_num [sampleFields]) (by norm_num [sampleFields])
    (by norm_num [sampleFields]) (by norm_num [sampleFields])
    (by norm_num [sampleFields]) (by norm_num [sampleFields])
    (by norm_num [sampleFields]) (by norm_num [sampleFields])
    (by norm_num [sampleFields]) (by norm_num [sampleFields])
    (by norm_num [sampleFields]) (by norm_num [sampleFields])
    (by norm_num [sampleFields]) (by norm_num [sampleFields])

